import Mathlib

/-!
# Verification of the ankura ingestion pipeline (src/ankura/pipeline.py)

Shallow embedding of the pipeline orchestration and storage engine:
the data model (Text, TokenLoc, Document, Corpus), the exact and hashed
vocabulary builders, the disk-backed DocumentStream, Pipeline.run, the
docwords matrix builder, and the train/test split size resolution and
reservoir-sampling path of test_train_split.

Python dicts are embedded as association lists in insertion order
(CPython dicts preserve insertion order); machine randomness is embedded
as explicit input streams; `hash` is an arbitrary parameter function;
real-number comparisons on random draws use ℚ.
-/

set_option maxHeartbeats 1000000

namespace Ankura

/-- Embeds `Text = namedtuple('Text', 'name data')`. -/
structure Text where
  name : String
  data : String
deriving DecidableEq, Repr

/-- A `TokenLoc` with a string token (pre-vocabulary). -/
structure TokenLocS where
  token : String
  loc : Nat × Nat
deriving DecidableEq, Repr

/-- A `TokenLoc` with an integer token id (post-vocabulary). -/
structure TokenLocN where
  token : Nat
  loc : Nat × Nat
deriving DecidableEq, Repr

/-- Embeds `Document = namedtuple('Document', 'text tokens metadata')`, with the
metadata type abstracted as `μ`. -/
structure Document (μ : Type) where
  text : String
  tokens : List TokenLocN
  metadata : μ
deriving DecidableEq, Repr

/-- Embeds `Corpus = namedtuple('Corpus', 'documents vocabulary metadata')`.
Documents are listed in insertion order (a DocumentStream is represented
by the list its iteration yields). -/
structure Corpus (μ : Type) where
  documents : List (Document μ)
  vocabulary : List String
  metadata : μ
deriving DecidableEq, Repr

/-- Association-list lookup, embedding Python dict `d[k]` / `k in d`
(dicts keep insertion order; keys are unique). -/
def assocFind {α β : Type} [DecidableEq α] (k : α) : List (α × β) → Option β
  | [] => none
  | (k', v) :: rest => if k' = k then some v else assocFind k rest

@[simp] theorem assocFind_nil {α β : Type} [DecidableEq α] (k : α) :
    assocFind k ([] : List (α × β)) = none := rfl

@[simp] theorem assocFind_cons {α β : Type} [DecidableEq α] (k k' : α) (v : β)
    (rest : List (α × β)) :
    assocFind k ((k', v) :: rest) = if k' = k then some v else assocFind k rest := rfl

theorem assocFind_append {α β : Type} [DecidableEq α] (k : α) (l₁ l₂ : List (α × β)) :
    assocFind k (l₁ ++ l₂) =
      match assocFind k l₁ with
      | some v => some v
      | none => assocFind k l₂ := by
  induction l₁ with
  | nil => simp
  | cons hd tl ih =>
    obtain ⟨k', v⟩ := hd
    by_cases h : k' = k <;> simp [h, ih]

/-! ## VocabBuilder (pipeline.py lines 471-486)

```python
class VocabBuilder(object):
    def __init__(self):
        self.tokens = []
        self.types = {}

    def __getitem__(self, token):
        if token not in self.types:
            self.types[token] = len(self.tokens)
            self.tokens.append(token)
        return self.types[token]
```
-/

structure VocabBuilder where
  tokens : List String
  types : List (String × Nat)
deriving DecidableEq, Repr

def VocabBuilder.init : VocabBuilder := ⟨[], []⟩

/-- Embeds `VocabBuilder.__getitem__`: on a miss, record `types[token] = len(tokens)`
and append the token; return `types[token]` (on a miss that is exactly the
freshly inserted value, the old `tokens` length). -/
def VocabBuilder.getitem (vb : VocabBuilder) (token : String) : VocabBuilder × Nat :=
  match assocFind token vb.types with
  | some i => (vb, i)
  | none =>
    (⟨vb.tokens ++ [token], vb.types ++ [(token, vb.tokens.length)]⟩, vb.tokens.length)

/-- Run a sequence of `__getitem__` lookups, discarding the returned ids. -/
def VocabBuilder.runLookups (vb : VocabBuilder) : List String → VocabBuilder
  | [] => vb
  | t :: ts => VocabBuilder.runLookups (vb.getitem t).1 ts

/-- The distinct tokens of a sequence in first-seen order (left fold mirroring
how first occurrences allocate ids). -/
def firstSeen (acc : List String) : List String → List String
  | [] => acc
  | t :: ts => firstSeen (if t ∈ acc then acc else acc ++ [t]) ts

/-- The dict `self.types` is exactly the enumeration of `self.tokens`: entry `i` of
`tokens` appears in `types` with value `i`, in order. -/
def mkTypes (i : Nat) : List String → List (String × Nat)
  | [] => []
  | t :: ts => (t, i) :: mkTypes (i + 1) ts

/-- Well-formedness of a VocabBuilder state: `types` enumerates `tokens`,
and `tokens` holds no duplicate. -/
def VocabBuilder.WF (vb : VocabBuilder) : Prop :=
  vb.types = mkTypes 0 vb.tokens ∧ vb.tokens.Nodup

theorem mkTypes_append (i : Nat) (ts : List String) (t : String) :
    mkTypes i (ts ++ [t]) = mkTypes i ts ++ [(t, i + ts.length)] := by
  induction ts generalizing i with
  | nil => simp [mkTypes]
  | cons hd tl ih =>
    simp only [List.cons_append, mkTypes, List.length_cons, List.append_eq, ih]
    have h : i + 1 + tl.length = i + (tl.length + 1) := by omega
    rw [h]

theorem assocFind_mkTypes_of_not_mem (t : String) (ts : List String) (i : Nat)
    (h : t ∉ ts) : assocFind t (mkTypes i ts) = none := by
  induction ts generalizing i with
  | nil => rfl
  | cons hd tl ih =>
    simp only [List.mem_cons, not_or] at h
    have hne : ¬hd = t := fun he => h.1 he.symm
    simp [mkTypes, hne, ih _ h.2]

theorem assocFind_mkTypes_of_mem (t : String) (ts : List String) (i : Nat)
    (h : t ∈ ts) : assocFind t (mkTypes i ts) = some (i + ts.indexOf t) := by
  induction ts generalizing i with
  | nil => simp at h
  | cons hd tl ih =>
    by_cases heq : hd = t
    · subst heq
      simp [mkTypes, List.indexOf_cons_self]
    · have hmem : t ∈ tl := by
        rcases List.mem_cons.mp h with h' | h'
        · exact absurd h'.symm heq
        · exact h'
      simp only [mkTypes, assocFind_cons, heq, if_false, ih _ hmem]
      rw [List.indexOf_cons_ne _ heq]
      congr 1
      omega

theorem VocabBuilder.initWF : VocabBuilder.WF VocabBuilder.init := by
  constructor <;> simp [VocabBuilder.init, mkTypes]

theorem VocabBuilder.getitem_WF (vb : VocabBuilder) (t : String) (h : vb.WF) :
    (vb.getitem t).1.WF := by
  obtain ⟨htypes, hnodup⟩ := h
  unfold VocabBuilder.getitem
  by_cases hmem : t ∈ vb.tokens
  · rw [htypes, assocFind_mkTypes_of_mem t _ 0 hmem]
    exact ⟨htypes, hnodup⟩
  · rw [htypes, assocFind_mkTypes_of_not_mem t _ 0 hmem]
    refine ⟨?_, ?_⟩
    · simp only [htypes, mkTypes_append, Nat.zero_add]
    · simpa [List.nodup_append] using ⟨hnodup, hmem⟩

/-- On a well-formed state, a lookup returns the index of the token's first
occurrence in the `tokens` list of the post-lookup state. -/
theorem VocabBuilder.getitem_id (vb : VocabBuilder) (t : String) (h : vb.WF) :
    (vb.getitem t).2 = (vb.getitem t).1.tokens.indexOf t ∧
      t ∈ (vb.getitem t).1.tokens := by
  obtain ⟨htypes, hnodup⟩ := h
  unfold VocabBuilder.getitem
  by_cases hmem : t ∈ vb.tokens
  · rw [htypes, assocFind_mkTypes_of_mem t _ 0 hmem]
    exact ⟨(Nat.zero_add _).symm ▸ rfl, hmem⟩
  · rw [htypes, assocFind_mkTypes_of_not_mem t _ 0 hmem]
    refine ⟨?_, by simp⟩
    rw [List.indexOf_append_of_not_mem hmem]
    simp [List.indexOf_cons_self]

theorem VocabBuilder.getitem_of_mem (vb : VocabBuilder) (t : String) (h : vb.WF)
    (hmem : t ∈ vb.tokens) :
    vb.getitem t = (vb, vb.tokens.indexOf t) := by
  obtain ⟨htypes, _⟩ := h
  unfold VocabBuilder.getitem
  rw [htypes, assocFind_mkTypes_of_mem t _ 0 hmem]
  simp

theorem VocabBuilder.runLookups_WF (ts : List String) (vb : VocabBuilder) (h : vb.WF) :
    (vb.runLookups ts).WF := by
  induction ts generalizing vb with
  | nil => exact h
  | cons t ts ih => exact ih _ (vb.getitem_WF t h)

/-- After processing `ts` the token list accumulates exactly the first-seen
distinct tokens of `ts`, appended to whatever was there already. -/
theorem VocabBuilder.runLookups_tokens (ts : List String) (vb : VocabBuilder)
    (h : vb.WF) :
    (vb.runLookups ts).tokens = firstSeen vb.tokens ts := by
  induction ts generalizing vb with
  | nil => rfl
  | cons t ts ih =>
    obtain ⟨htypes, hnodup⟩ := h
    show ((vb.getitem t).1.runLookups ts).tokens = firstSeen _ (t :: ts)
    rw [ih _ (vb.getitem_WF t ⟨htypes, hnodup⟩)]
    unfold VocabBuilder.getitem
    by_cases hmem : t ∈ vb.tokens
    · rw [htypes, assocFind_mkTypes_of_mem t _ 0 hmem]
      simp [firstSeen, hmem]
    · rw [htypes, assocFind_mkTypes_of_not_mem t _ 0 hmem]
      simp [firstSeen, hmem]

theorem mem_firstSeen (ts : List String) (acc : List String) (t : String)
    (h : t ∈ ts ∨ t ∈ acc) : t ∈ firstSeen acc ts := by
  induction ts generalizing acc with
  | nil => simpa using h.resolve_left (by simp)
  | cons hd tl ih =>
    apply ih
    rcases h with h | h
    · rcases List.mem_cons.mp h with h' | h'
      · subst h'
        right
        by_cases hmem : t ∈ acc <;> simp [hmem]
      · exact Or.inl h'
    · right
      by_cases hmem : hd ∈ acc <;> simp [hmem, h]

/-- Claim C8: within one VocabBuilder instance, over any finite lookup
sequence, distinct tokens receive ids 0, 1, 2, ... in first-seen order
(the token list equals the first-seen distinct tokens of the sequence, and
each token's id is its position there), a repeated lookup of any already
seen token returns that same id without changing the builder state, and
the token list at position id holds the token's surface string. -/
theorem C8_vocab_first_seen_sequential_ids (ts : List String) (t : String)
    (h : t ∈ ts) :
    (VocabBuilder.init.runLookups ts).tokens = firstSeen [] ts ∧
      (VocabBuilder.init.runLookups ts).getitem t =
        (VocabBuilder.init.runLookups ts, (firstSeen [] ts).indexOf t) ∧
      (firstSeen [] ts).get? ((firstSeen [] ts).indexOf t) = some t := by
  have hwf : (VocabBuilder.init.runLookups ts).WF :=
    VocabBuilder.runLookups_WF ts _ VocabBuilder.initWF
  have htoks : (VocabBuilder.init.runLookups ts).tokens = firstSeen [] ts := by
    simpa [VocabBuilder.init] using
      VocabBuilder.runLookups_tokens ts VocabBuilder.init VocabBuilder.initWF
  have hmem : t ∈ firstSeen [] ts := mem_firstSeen ts [] t (Or.inl h)
  refine ⟨htoks, ?_, List.indexOf_get? hmem⟩
  rw [VocabBuilder.getitem_of_mem _ t hwf (htoks ▸ hmem), htoks]

/-- Witness for C8 at the concrete lookup sequence ["b", "a", "b"] and
token "a". -/
theorem C8_witness :
    (VocabBuilder.init.runLookups ["b", "a", "b"]).tokens = firstSeen [] ["b", "a", "b"] ∧
      (VocabBuilder.init.runLookups ["b", "a", "b"]).getitem "a" =
        (VocabBuilder.init.runLookups ["b", "a", "b"],
          (firstSeen [] ["b", "a", "b"]).indexOf "a") ∧
      (firstSeen [] ["b", "a", "b"]).get? ((firstSeen [] ["b", "a", "b"]).indexOf "a") =
        some "a" :=
  C8_vocab_first_seen_sequential_ids ["b", "a", "b"] "a" (by decide)

/-! ## HashedVocabBuilder (pipeline.py lines 489-516)

```python
class HashedVocabBuilder(VocabBuilder):
    def __init__(self, size):
        self.buckets = []
        self.types = {}
        self.size = size
        self.indices = {}

    def __getitem__(self, token):
        if token not in self.types:
            key = hash(token) % self.size
            if key not in self.indices:
                self.indices[key] = len(self.buckets)
                self.buckets.append(collections.defaultdict(int))
            self.types[token] = self.indices[key]
        tid = self.types[token]
        self.buckets[tid][token] += 1
        return tid

    @property
    def tokens(self):
        return [max(b, key=b.get) for b in self.buckets]
```

Buckets (`defaultdict(int)`) are association lists in insertion order; the
Python `hash` builtin is an arbitrary parameter `hashF`.
-/

structure HashedVocabBuilder where
  buckets : List (List (String × Nat))
  types : List (String × Nat)
  size : Nat
  indices : List (Nat × Nat)
deriving DecidableEq, Repr

def HashedVocabBuilder.init (size : Nat) : HashedVocabBuilder := ⟨[], [], size, []⟩

/-- Embeds `self.buckets[tid][token] += 1` on a `defaultdict(int)`: increment in
place, or append the token with count 1 when absent. -/
def bumpCount (t : String) : List (String × Nat) → List (String × Nat)
  | [] => [(t, 1)]
  | (k, c) :: rest => if k = t then (k, c + 1) :: rest else (k, c) :: bumpCount t rest

/-- In-place update of the element at index `n` (no-op out of range),
embedding `self.buckets[tid] = ...` style mutation. -/
def modifyAt {α : Type} (f : α → α) : Nat → List α → List α
  | _, [] => []
  | 0, x :: xs => f x :: xs
  | n + 1, x :: xs => x :: modifyAt f n xs

def HashedVocabBuilder.getitem (hashF : String → Nat) (h : HashedVocabBuilder)
    (token : String) : HashedVocabBuilder × Nat :=
  let h1 :=
    match assocFind token h.types with
    | some _ => h
    | none =>
      let key := hashF token % h.size
      let h' :=
        match assocFind key h.indices with
        | some _ => h
        | none =>
          { h with indices := h.indices ++ [(key, h.buckets.length)],
                   buckets := h.buckets ++ [[]] }
      { h' with types := h'.types ++ [(token, (assocFind key h'.indices).getD 0)] }
  let tid := (assocFind token h1.types).getD 0
  ({ h1 with buckets := modifyAt (bumpCount token) tid h1.buckets }, tid)

/-- One comparison step of Python `max(..., key=...)`: the running best is
replaced only when the candidate's key is strictly greater. -/
def pyMaxStep (best y : String × Nat) : String × Nat := if best.2 < y.2 then y else best

/-- Embeds `max(b, key=b.get)`: left fold over the keys in insertion order,
replacing the current best only on a strictly greater count, so the first
of the tied maxima wins. Defined on the nonempty shape `x :: xs`. -/
def bucketMax : List (String × Nat) → String × Nat
  | [] => ("", 0)
  | x :: xs => xs.foldl pyMaxStep x

def HashedVocabBuilder.tokens (h : HashedVocabBuilder) : List String :=
  h.buckets.map (fun b => (bucketMax b).1)

/-- Run a sequence of `__getitem__` lookups, collecting the returned ids. -/
def HashedVocabBuilder.runLookups (hashF : String → Nat) (h : HashedVocabBuilder) :
    List String → HashedVocabBuilder × List Nat
  | [] => (h, [])
  | t :: ts =>
    let step := h.getitem hashF t
    let rest := HashedVocabBuilder.runLookups hashF step.1 ts
    (rest.1, step.2 :: rest.2)

/-- Reachability invariants of a HashedVocabBuilder state. -/
structure HashedVocabBuilder.WF (h : HashedVocabBuilder) : Prop where
  ilen : h.indices.length = h.buckets.length
  inodup : (h.indices.map Prod.fst).Nodup
  ikeys : 0 < h.size → ∀ e ∈ h.indices, e.1 < h.size
  ivals : ∀ e ∈ h.indices, e.2 < h.buckets.length
  tvals : ∀ e ∈ h.types, e.2 < h.buckets.length
  bne : ∀ j < h.buckets.length, h.buckets.getD j [] ≠ []

theorem HashedVocabBuilder.initHWF (size : Nat) : (HashedVocabBuilder.init size).WF := by
  constructor <;> simp [HashedVocabBuilder.init]

theorem assocFind_eq_none_iff {α β : Type} [DecidableEq α] (k : α) (l : List (α × β)) :
    assocFind k l = none ↔ k ∉ l.map Prod.fst := by
  induction l with
  | nil => simp
  | cons hd tl ih =>
    obtain ⟨k', v⟩ := hd
    by_cases h : k' = k
    · simp [h]
    · simp only [assocFind_cons, h, if_false, ih, List.map_cons, List.mem_cons, not_or]
      have h' : ¬k = k' := fun he => h he.symm
      tauto

theorem bumpCount_ne_nil (t : String) (b : List (String × Nat)) : bumpCount t b ≠ [] := by
  cases b with
  | nil => simp [bumpCount]
  | cons hd tl =>
    obtain ⟨k, c⟩ := hd
    by_cases h : k = t <;> simp [bumpCount, h]

@[simp] theorem modifyAt_length {α : Type} (f : α → α) (n : Nat) (l : List α) :
    (modifyAt f n l).length = l.length := by
  induction l generalizing n with
  | nil => cases n <;> rfl
  | cons x xs ih =>
    cases n with
    | zero => rfl
    | succ m => simp [modifyAt, ih]

theorem getD_modifyAt_eq {α : Type} (f : α → α) (n : Nat) (l : List α) (d : α)
    (h : n < l.length) : (modifyAt f n l).getD n d = f (l.getD n d) := by
  induction l generalizing n with
  | nil => simp at h
  | cons x xs ih =>
    cases n with
    | zero => rfl
    | succ m => simpa [modifyAt] using ih m (by simpa using h)

theorem getD_modifyAt_ne {α : Type} (f : α → α) (n : Nat) (l : List α) (d : α)
    (j : Nat) (h : j ≠ n) : (modifyAt f n l).getD j d = l.getD j d := by
  induction l generalizing n j with
  | nil => cases n <;> rfl
  | cons x xs ih =>
    cases n with
    | zero =>
      cases j with
      | zero => exact absurd rfl h
      | succ i => rfl
    | succ m =>
      cases j with
      | zero => rfl
      | succ i => simpa [modifyAt] using ih m i (by omega)

theorem assocFind_mem {α β : Type} [DecidableEq α] {k : α} {v : β} {l : List (α × β)}
    (h : assocFind k l = some v) : (k, v) ∈ l := by
  induction l with
  | nil => simp at h
  | cons hd tl ih =>
    obtain ⟨k', v'⟩ := hd
    by_cases heq : k' = k
    · subst heq
      simp at h
      subst h
      simp
    · simp only [assocFind_cons, heq, if_false] at h
      exact List.mem_cons_of_mem _ (ih h)

/-- One `__getitem__` step preserves the invariants, returns an id that is a
valid index into the (post-step) bucket list, never shrinks the bucket list,
and leaves `size` unchanged. -/
theorem HashedVocabBuilder.getitem_step_spec (hashF : String → Nat)
    (h : HashedVocabBuilder) (token : String) (hwf : h.WF) :
    (h.getitem hashF token).1.WF ∧
      (h.getitem hashF token).2 < (h.getitem hashF token).1.buckets.length ∧
      h.buckets.length ≤ (h.getitem hashF token).1.buckets.length ∧
      (h.getitem hashF token).1.size = h.size := by
  obtain ⟨ilen, inodup, ikeys, ivals, tvals, bne⟩ := hwf
  cases hft : assocFind token h.types with
  | some i =>
    have hid : i < h.buckets.length := tvals _ (assocFind_mem hft)
    simp only [HashedVocabBuilder.getitem, hft, Option.getD_some]
    refine ⟨⟨by simpa using ilen, inodup, ikeys, ?_, ?_, ?_⟩, ?_, ?_, trivial⟩
    · simpa using ivals
    · simpa using tvals
    · intro j hj
      simp only [modifyAt_length] at hj
      by_cases hji : j = i
      · subst hji
        rw [getD_modifyAt_eq _ _ _ _ hid]
        exact bumpCount_ne_nil token _
      · rw [getD_modifyAt_ne _ _ _ _ _ hji]
        exact bne j hj
    · simpa using hid
    · simp
  | none =>
    cases hfk : assocFind (hashF token % h.size) h.indices with
    | some j =>
      have hjlt : j < h.buckets.length := ivals _ (assocFind_mem hfk)
      have htid : assocFind token (h.types ++ [(token, j)]) = some j := by
        rw [assocFind_append, hft]
        simp
      simp only [HashedVocabBuilder.getitem, hft, hfk, Option.getD_some, htid]
      refine ⟨⟨by simpa using ilen, inodup, ikeys, ?_, ?_, ?_⟩, ?_, ?_, trivial⟩
      · simpa using ivals
      · intro e he
        simp only [modifyAt_length]
        rcases List.mem_append.mp he with he | he
        · exact tvals _ he
        · simp only [List.mem_singleton] at he
          subst he
          simpa using hjlt
      · intro l hl
        simp only [modifyAt_length] at hl
        by_cases hlj : l = j
        · subst hlj
          rw [getD_modifyAt_eq _ _ _ _ hjlt]
          exact bumpCount_ne_nil token _
        · rw [getD_modifyAt_ne _ _ _ _ _ hlj]
          exact bne l hl
      · simpa using hjlt
      · simp
    | none =>
      have hkey : assocFind (hashF token % h.size)
          (h.indices ++ [(hashF token % h.size, h.buckets.length)]) =
            some h.buckets.length := by
        rw [assocFind_append, hfk]
        simp
      have htid : assocFind token (h.types ++ [(token, h.buckets.length)]) =
          some h.buckets.length := by
        rw [assocFind_append, hft]
        simp
      simp only [HashedVocabBuilder.getitem, hft, hfk, hkey, Option.getD_some, htid]
      have hlt : h.buckets.length < (h.buckets ++ [[]]).length := by simp
      refine ⟨⟨?_, ?_, ?_, ?_, ?_, ?_⟩, ?_, ?_, trivial⟩
      · simpa using ilen
      · rw [List.map_append]
        refine List.Nodup.append inodup (by simp) ?_
        intro x hx hx'
        simp only [List.map_cons, List.map_nil, List.mem_singleton] at hx'
        subst hx'
        exact (assocFind_eq_none_iff _ _).mp hfk hx
      · intro hs e he
        rcases List.mem_append.mp he with he | he
        · exact ikeys hs _ he
        · simp only [List.mem_singleton] at he
          subst he
          exact Nat.mod_lt _ hs
      · intro e he
        simp only [modifyAt_length, List.length_append, List.length_singleton]
        rcases List.mem_append.mp he with he | he
        · have := ivals _ he
          omega
        · simp only [List.mem_singleton] at he
          subst he
          simp
      · intro e he
        simp only [modifyAt_length, List.length_append, List.length_singleton]
        rcases List.mem_append.mp he with he | he
        · have := tvals _ he
          omega
        · simp only [List.mem_singleton] at he
          subst he
          simp
      · intro l hl
        simp only [modifyAt_length, List.length_append, List.length_singleton] at hl
        by_cases hlj : l = h.buckets.length
        · subst hlj
          rw [getD_modifyAt_eq _ _ _ _ hlt]
          exact bumpCount_ne_nil token _
        · rw [getD_modifyAt_ne _ _ _ _ _ hlj]
          have hllt : l < h.buckets.length := by omega
          rw [List.getD_append _ _ _ _ hllt]
          exact bne l hllt
      · simp
      · simp

/-- Iterated lookups preserve the invariants, never shrink the bucket list,
keep `size` fixed, and every id ever returned is below the final bucket
count. -/
theorem HashedVocabBuilder.runLookups_spec (hashF : String → Nat)
    (ts : List String) (h : HashedVocabBuilder) (hwf : h.WF) :
    (h.runLookups hashF ts).1.WF ∧
      h.buckets.length ≤ (h.runLookups hashF ts).1.buckets.length ∧
      (h.runLookups hashF ts).1.size = h.size ∧
      ∀ id ∈ (h.runLookups hashF ts).2, id < (h.runLookups hashF ts).1.buckets.length := by
  induction ts generalizing h with
  | nil => exact ⟨hwf, le_refl _, rfl, by simp [HashedVocabBuilder.runLookups]⟩
  | cons t ts ih =>
    obtain ⟨hwf', hid, hmono, hsize⟩ := h.getitem_step_spec hashF t hwf
    obtain ⟨ihwf, ihmono, ihsize, ihids⟩ := ih (h.getitem hashF t).1 hwf'
    simp only [HashedVocabBuilder.runLookups]
    refine ⟨ihwf, le_trans hmono ihmono, by rw [ihsize, hsize], ?_⟩
    intro id hidmem
    rcases List.mem_cons.mp hidmem with h' | h'
    · subst h'
      exact lt_of_lt_of_le hid ihmono
    · exact ihids id h'

theorem pyMaxFold_le (xs : List (String × Nat)) (x : String × Nat) :
    x.2 ≤ (xs.foldl pyMaxStep x).2 ∧ ∀ e ∈ xs, e.2 ≤ (xs.foldl pyMaxStep x).2 := by
  induction xs generalizing x with
  | nil => simp
  | cons y ys ih =>
    simp only [List.foldl_cons]
    obtain ⟨ih1, ih2⟩ := ih (pyMaxStep x y)
    have hx : x.2 ≤ (pyMaxStep x y).2 := by
      unfold pyMaxStep
      by_cases hlt : x.2 < y.2
      · simp [hlt]
        omega
      · simp [hlt]
    have hy : y.2 ≤ (pyMaxStep x y).2 := by
      unfold pyMaxStep
      by_cases hlt : x.2 < y.2
      · simp [hlt]
      · simp [hlt]
        omega
    refine ⟨le_trans hx ih1, ?_⟩
    intro e he
    rcases List.mem_cons.mp he with he | he
    · rw [he]
      exact le_trans hy ih1
    · exact ih2 e he

theorem pyMaxFold_first (xs : List (String × Nat)) (x : String × Nat) :
    ∃ pre post, x :: xs = pre ++ (xs.foldl pyMaxStep x) :: post ∧
      ∀ e ∈ pre, e.2 < (xs.foldl pyMaxStep x).2 := by
  induction xs generalizing x with
  | nil => exact ⟨[], [], rfl, by simp⟩
  | cons y ys ih =>
    simp only [List.foldl_cons]
    by_cases hlt : x.2 < y.2
    · have hstep : pyMaxStep x y = y := by simp [pyMaxStep, hlt]
      rw [hstep]
      obtain ⟨pre', post', heq, hpre'⟩ := ih y
      refine ⟨x :: pre', post', ?_, ?_⟩
      · rw [List.cons_append, ← heq]
      · intro e he
        rcases List.mem_cons.mp he with he | he
        · rw [he]
          exact lt_of_lt_of_le hlt (pyMaxFold_le ys y).1
        · exact hpre' e he
    · have hstep : pyMaxStep x y = x := by simp [pyMaxStep, hlt]
      rw [hstep]
      obtain ⟨pre', post', heq, hpre'⟩ := ih x
      cases pre' with
      | nil =>
        simp only [List.nil_append] at heq
        injection heq with h1 h2
        refine ⟨[], y :: ys, ?_, by simp⟩
        rw [← h1]
        simp
      | cons p pre'' =>
        simp only [List.cons_append] at heq
        injection heq with h1 h2
        refine ⟨x :: y :: pre'', post', ?_, ?_⟩
        · simp only [List.cons_append]
          exact congrArg (fun l => x :: y :: l) h2
        · intro e he
          have hxlt : x.2 < (ys.foldl pyMaxStep x).2 := by
            have hp := hpre' p (List.mem_cons_self _ _)
            rwa [← h1] at hp
          rcases List.mem_cons.mp he with he | he
          · rw [he]
            exact hxlt
          · rcases List.mem_cons.mp he with he | he
            · rw [he]
              have hyx : y.2 ≤ x.2 := by omega
              exact lt_of_le_of_lt hyx hxlt
            · exact hpre' e (List.mem_cons_of_mem _ he)

/-- For a nonempty bucket, the representative chosen by `max(b, key=b.get)`
has a count at least every entry's count, occurs in the bucket, and every
entry strictly before its (first) occurrence has a strictly smaller count. -/
theorem bucketMax_spec (b : List (String × Nat)) (hb : b ≠ []) :
    (∀ e ∈ b, e.2 ≤ (bucketMax b).2) ∧
      ∃ pre post, b = pre ++ bucketMax b :: post ∧
        ∀ e ∈ pre, e.2 < (bucketMax b).2 := by
  cases b with
  | nil => exact absurd rfl hb
  | cons x xs =>
    obtain ⟨h1, h2⟩ := pyMaxFold_le xs x
    refine ⟨?_, pyMaxFold_first xs x⟩
    intro e he
    rcases List.mem_cons.mp he with he | he
    · exact he ▸ h1
    · exact h2 e he

theorem getD_map_bucketMax (l : List (List (String × Nat))) (i : Nat) :
    (l.map (fun b => (bucketMax b).1)).getD i "" = (bucketMax (l.getD i [])).1 := by
  induction l generalizing i with
  | nil => cases i <;> rfl
  | cons b bs ih =>
    cases i with
    | zero => rfl
    | succ j => simpa using ih j

/-- Claim C3: after any finite sequence of lookups on a HashedVocabBuilder,
the exported tokens list maps each allocated bucket to a token whose
recorded occurrence count in that bucket is greatest, and the chosen entry
is the first-encountered one among the tied maxima: every entry strictly
before it in the bucket (bucket entries are kept in first-encounter order)
has a strictly smaller count. -/
theorem C3_hashed_export_representative (hashF : String → Nat) (size : Nat)
    (ts : List String) (i : Nat)
    (hi : i < (((HashedVocabBuilder.init size).runLookups hashF ts).1).buckets.length) :
    (((HashedVocabBuilder.init size).runLookups hashF ts).1).tokens.getD i "" =
      (bucketMax ((((HashedVocabBuilder.init size).runLookups hashF ts).1).buckets.getD i [])).1 ∧
      (∀ e ∈ (((HashedVocabBuilder.init size).runLookups hashF ts).1).buckets.getD i [],
        e.2 ≤ (bucketMax ((((HashedVocabBuilder.init size).runLookups hashF ts).1).buckets.getD i [])).2) ∧
      ∃ pre post,
        (((HashedVocabBuilder.init size).runLookups hashF ts).1).buckets.getD i [] =
          pre ++ bucketMax ((((HashedVocabBuilder.init size).runLookups hashF ts).1).buckets.getD i []) :: post ∧
        ∀ e ∈ pre,
          e.2 < (bucketMax ((((HashedVocabBuilder.init size).runLookups hashF ts).1).buckets.getD i [])).2 := by
  obtain ⟨hwf, -, -, -⟩ :=
    HashedVocabBuilder.runLookups_spec hashF ts (HashedVocabBuilder.init size)
      (HashedVocabBuilder.initHWF size)
  have hne := hwf.bne i hi
  obtain ⟨h1, h2⟩ := bucketMax_spec _ hne
  exact ⟨getD_map_bucketMax _ i, h1, h2⟩

/-- Witness for C3 with `size = 1`, the constant hash function, and the
lookup sequence ["a", "b", "a"] (all tokens collide into bucket 0). -/
theorem C3_witness :
    (((HashedVocabBuilder.init 1).runLookups (fun _ => 0) ["a", "b", "a"]).1).tokens.getD 0 "" =
      (bucketMax ((((HashedVocabBuilder.init 1).runLookups (fun _ => 0) ["a", "b", "a"]).1).buckets.getD 0 [])).1 ∧
      (∀ e ∈ (((HashedVocabBuilder.init 1).runLookups (fun _ => 0) ["a", "b", "a"]).1).buckets.getD 0 [],
        e.2 ≤ (bucketMax ((((HashedVocabBuilder.init 1).runLookups (fun _ => 0) ["a", "b", "a"]).1).buckets.getD 0 [])).2) ∧
      ∃ pre post,
        (((HashedVocabBuilder.init 1).runLookups (fun _ => 0) ["a", "b", "a"]).1).buckets.getD 0 [] =
          pre ++ bucketMax ((((HashedVocabBuilder.init 1).runLookups (fun _ => 0) ["a", "b", "a"]).1).buckets.getD 0 []) :: post ∧
        ∀ e ∈ pre,
          e.2 < (bucketMax ((((HashedVocabBuilder.init 1).runLookups (fun _ => 0) ["a", "b", "a"]).1).buckets.getD 0 [])).2 :=
  C3_hashed_export_representative (fun _ => 0) 1 ["a", "b", "a"] 0 (by decide)

/-- Claim C5: for `size ≥ 1`, a HashedVocabBuilder never allocates more than
`size` distinct ids over any finite lookup sequence — the exported tokens
list has length equal to the number of allocated buckets and at most `size`
— and every id returned by a lookup is a valid 0-based index into that
exported list. -/
theorem C5_hashed_id_bound (hashF : String → Nat) (size : Nat) (ts : List String)
    (hsize : 0 < size) :
    (((HashedVocabBuilder.init size).runLookups hashF ts).1).tokens.length ≤ size ∧
      (((HashedVocabBuilder.init size).runLookups hashF ts).1).tokens.length =
        (((HashedVocabBuilder.init size).runLookups hashF ts).1).buckets.length ∧
      ∀ id ∈ ((HashedVocabBuilder.init size).runLookups hashF ts).2,
        id < (((HashedVocabBuilder.init size).runLookups hashF ts).1).tokens.length := by
  obtain ⟨hwf, -, hsz, hids⟩ :=
    HashedVocabBuilder.runLookups_spec hashF ts (HashedVocabBuilder.init size)
      (HashedVocabBuilder.initHWF size)
  have htoklen : (((HashedVocabBuilder.init size).runLookups hashF ts).1).tokens.length =
      (((HashedVocabBuilder.init size).runLookups hashF ts).1).buckets.length := by
    simp [HashedVocabBuilder.tokens]
  have hkeys : ∀ k ∈ ((((HashedVocabBuilder.init size).runLookups hashF ts).1).indices.map
      Prod.fst), k < size := by
    intro k hk
    obtain ⟨e, he, rfl⟩ := List.mem_map.mp hk
    have h0 : 0 < (((HashedVocabBuilder.init size).runLookups hashF ts).1).size := by
      rw [hsz]
      exact hsize
    have := hwf.ikeys h0 e he
    rwa [hsz] at this
  have hsub : ((((HashedVocabBuilder.init size).runLookups hashF ts).1).indices.map
      Prod.fst).toFinset ⊆ Finset.range size := by
    intro k hk
    rw [List.mem_toFinset] at hk
    rw [Finset.mem_range]
    exact hkeys k hk
  have hcard : ((((HashedVocabBuilder.init size).runLookups hashF ts).1).indices.map
      Prod.fst).length ≤ size := by
    rw [← List.toFinset_card_of_nodup hwf.inodup]
    simpa [Finset.card_range] using Finset.card_le_card hsub
  refine ⟨?_, htoklen, fun id hid => htoklen ▸ hids id hid⟩
  rw [htoklen, ← hwf.ilen]
  simpa using hcard

/-- Witness for C5 with `size = 1`, the constant hash function, and the
lookup sequence ["a", "b"]. -/
theorem C5_witness :
    (((HashedVocabBuilder.init 1).runLookups (fun _ => 0) ["a", "b"]).1).tokens.length ≤ 1 ∧
      (((HashedVocabBuilder.init 1).runLookups (fun _ => 0) ["a", "b"]).1).tokens.length =
        (((HashedVocabBuilder.init 1).runLookups (fun _ => 0) ["a", "b"]).1).buckets.length ∧
      ∀ id ∈ ((HashedVocabBuilder.init 1).runLookups (fun _ => 0) ["a", "b"]).2,
        id < (((HashedVocabBuilder.init 1).runLookups (fun _ => 0) ["a", "b"]).1).tokens.length :=
  C5_hashed_id_bound (fun _ => 0) 1 ["a", "b"] (by decide)

/-! ## DocumentStream (pipeline.py lines 519-559)

```python
class DocumentStream(object):
    def __init__(self, filename):
        self._path = filename
        self._file = open(filename, 'wb')
        self._flushed = True
        self._size = 0

    def append(self, doc):
        if self._file is None:
            self._file = open(self._path, 'ab')
        pickle.dump(doc, self._file)
        self._size += 1
        self._flushed = False

    def __iter__(self):
        self._flush()
        with open(self._path, 'rb') as docs:
            for _ in range(self._size):
                yield pickle.load(docs)

    def _flush(self):
        if self._file is not None and not self._flushed:
            self._file.flush()
            self._flushed = True

    def __len__(self):
        return self._size
```

The backing file is the list of records visible to a reader (`file`);
records written through the buffered handle but not yet flushed sit in
`pending`.  `open(filename, 'wb')` truncates, so `init` discards any prior
contents of the path.
-/

structure DocumentStream (α : Type) where
  file : List α
  pending : List α
  size : Nat
  flushed : Bool
  fileOpen : Bool
deriving DecidableEq, Repr

/-- Embeds `__init__`: `open(filename, 'wb')` truncates whatever `prior` records
existed at the path; the stream starts with an empty backing file and
logical size 0. -/
def DocumentStream.init {α : Type} (_prior : List α) : DocumentStream α :=
  ⟨[], [], 0, true, true⟩

/-- Embeds `append`: reopen lazily in append mode if needed, buffer the record,
bump the size, mark dirty. -/
def DocumentStream.append {α : Type} (s : DocumentStream α) (doc : α) : DocumentStream α :=
  { s with fileOpen := true, pending := s.pending ++ [doc],
           size := s.size + 1, flushed := false }

/-- Embeds `_flush`: push buffered records to the backing file when the handle is
open and dirty. -/
def DocumentStream.flush {α : Type} (s : DocumentStream α) : DocumentStream α :=
  if s.fileOpen && !s.flushed then
    { s with file := s.file ++ s.pending, pending := [], flushed := true }
  else s

/-- Embeds `__iter__`: flush, then replay exactly `size` records from the start of
the backing file.  Returns the post-flush state together with the yielded
sequence (iteration mutates only the flush state). -/
def DocumentStream.iter {α : Type} (s : DocumentStream α) : DocumentStream α × List α :=
  let s' := s.flush
  (s', s'.file.take s'.size)

/-- Embeds `__len__`: the stored `_size` counter; the backing file is not read. -/
def DocumentStream.len {α : Type} (s : DocumentStream α) : Nat := s.size

def DocumentStream.appendAll {α : Type} (s : DocumentStream α) (docs : List α) :
    DocumentStream α :=
  docs.foldl DocumentStream.append s

/-- Reachability invariants of a stream being written by one pipeline run:
the size counter counts the records written, a clean stream has an empty
buffer, and the write handle is open. -/
structure DocumentStream.Inv {α : Type} (s : DocumentStream α) : Prop where
  sz : s.size = s.file.length + s.pending.length
  fl : s.flushed = true → s.pending = []
  op : s.fileOpen = true

theorem DocumentStream.init_inv {α : Type} (prior : List α) :
    (DocumentStream.init prior).Inv := by
  constructor <;> simp [DocumentStream.init]

theorem DocumentStream.append_inv {α : Type} (s : DocumentStream α) (doc : α)
    (h : s.Inv) : (s.append doc).Inv ∧
      (s.append doc).file ++ (s.append doc).pending = (s.file ++ s.pending) ++ [doc] := by
  refine ⟨⟨?_, ?_, rfl⟩, ?_⟩
  · simp [DocumentStream.append, h.sz]
    omega
  · simp [DocumentStream.append]
  · simp [DocumentStream.append]

theorem DocumentStream.flush_spec {α : Type} (s : DocumentStream α) (h : s.Inv) :
    s.flush.file = s.file ++ s.pending ∧ s.flush.pending = [] ∧
      s.flush.size = s.size ∧ s.flush.Inv := by
  by_cases hc : (s.fileOpen && !s.flushed) = true
  · unfold DocumentStream.flush
    rw [if_pos hc]
    refine ⟨rfl, rfl, rfl, ⟨?_, ?_, h.op⟩⟩
    · show s.size = (s.file ++ s.pending).length + ([] : List α).length
      rw [h.sz]
      simp
    · intro _
      rfl
  · have hfl : s.flushed = true := by
      cases hft : s.flushed with
      | true => rfl
      | false =>
        exfalso
        apply hc
        rw [h.op, hft]
        rfl
    have hpe : s.pending = [] := h.fl hfl
    unfold DocumentStream.flush
    rw [if_neg hc]
    exact ⟨by rw [hpe, List.append_nil], hpe, rfl, h⟩

theorem DocumentStream.iter_spec {α : Type} (s : DocumentStream α) (h : s.Inv) :
    s.iter.2 = s.file ++ s.pending ∧ s.iter.1.Inv ∧
      s.iter.1.file = s.file ++ s.pending ∧ s.iter.1.pending = [] := by
  obtain ⟨hf, hp, hsz, hinv⟩ := s.flush_spec h
  refine ⟨?_, hinv, hf, hp⟩
  show s.flush.file.take s.flush.size = s.file ++ s.pending
  rw [hf, hsz, h.sz]
  have hlen : (s.file ++ s.pending).length = s.file.length + s.pending.length := by
    simp
  rw [← hlen, List.take_length]

theorem DocumentStream.appendAll_spec {α : Type} (docs : List α) (s : DocumentStream α)
    (h : s.Inv) : (s.appendAll docs).Inv ∧
      (s.appendAll docs).file ++ (s.appendAll docs).pending = (s.file ++ s.pending) ++ docs ∧
      (s.appendAll docs).size = s.size + docs.length := by
  induction docs generalizing s with
  | nil => simp [DocumentStream.appendAll, h]
  | cons d ds ih =>
    obtain ⟨h1, h2⟩ := s.append_inv d h
    obtain ⟨ih1, ih2, ih3⟩ := ih (s.append d) h1
    refine ⟨ih1, ?_, ?_⟩
    · rw [show (s.appendAll (d :: ds)) = (s.append d).appendAll ds from rfl, ih2, h2]
      simp
    · rw [show (s.appendAll (d :: ds)) = (s.append d).appendAll ds from rfl, ih3]
      simp [DocumentStream.append]
      omega

/-- Claim C6: appending N documents to a fresh DocumentStream and iterating
yields exactly those N documents in append order; iterating a second time
(from the state the first iteration leaves behind) yields the identical
sequence; and the length query returns N, read from the stored size counter
rather than from the backing file. -/
theorem C6_stream_append_iter_len {α : Type} (docs : List α) :
    ((DocumentStream.init ([] : List α)).appendAll docs).iter.2 = docs ∧
      ((DocumentStream.init ([] : List α)).appendAll docs).iter.1.iter.2 = docs ∧
      ((DocumentStream.init ([] : List α)).appendAll docs).len = docs.length := by
  obtain ⟨hinv, hcontent, hsize⟩ :=
    DocumentStream.appendAll_spec docs (DocumentStream.init []) (DocumentStream.init_inv [])
  obtain ⟨h1, h2, h3, h4⟩ := DocumentStream.iter_spec _ hinv
  have hdocs : ((DocumentStream.init ([] : List α)).appendAll docs).file ++
      ((DocumentStream.init ([] : List α)).appendAll docs).pending = docs := by
    simpa [DocumentStream.init] using hcontent
  obtain ⟨h1', -, -, -⟩ := DocumentStream.iter_spec _ h2
  refine ⟨by rw [h1, hdocs], ?_, ?_⟩
  · rw [h1', h3, h4, hdocs]
    simp
  · unfold DocumentStream.len
    rw [hsize]
    simp [DocumentStream.init]

/-! ## Pipeline (pipeline.py lines 562-595)

```python
class Pipeline(object):
    def __init__(self, inputer, extractor, tokenizer, labeler, filterer, informer=None):
        ...

    def run(self, pickle_path=None, docs_path=None, hash_size=None):
        if pickle_path and os.path.exists(pickle_path):
            return pickle.load(open(pickle_path, 'rb'))
        documents = DocumentStream(docs_path) if docs_path else []
        vocab = HashedVocabBuilder(hash_size) if hash_size else VocabBuilder()
        for docfile in self.inputer():
            for text in self.extractor(docfile):
                tokens = self.tokenizer(text.data)
                types = vocab.convert(tokens)
                metadata = self.labeler(text.name)
                document = Document(text.data, types, metadata)
                if self.filterer(document):
                    documents.append(document)
        corpus = Corpus(documents, vocab.tokens, {})
        if self.informer:
            corpus.metadata.update(self.informer(corpus))
        if pickle_path:
            pickle.dump(corpus, open(pickle_path, 'wb'))
        return corpus
```

`pickle_path and os.path.exists(pickle_path)` is modelled by an
`Option (Corpus μ)` holding the persisted Corpus when the path is given and
the file exists.  `docs_path` truthiness is a Bool plus the prior contents
of the backing file; `hash_size` truthiness is `truthyN` (`None` and `0`
are both falsy in Python).  The run result carries a Bool flag recording
whether the ingestion loop ran at all (`false` on the cache short-circuit,
where no strategy — in particular the Inputer — is ever invoked).  The
final `pickle.dump` is a side effect with no bearing on the returned
Corpus and is not modelled.
-/

/-- Python truthiness of an optional integer argument: `None` and `0` are
falsy. -/
def truthyN : Option Nat → Bool
  | none => false
  | some n => n != 0

/-- The vocabulary strategy chosen by `Pipeline.run`: an exact
`VocabBuilder` or a `HashedVocabBuilder`. -/
inductive Vocab where
  | exact : VocabBuilder → Vocab
  | hashed : HashedVocabBuilder → Vocab
deriving DecidableEq, Repr

def Vocab.getitem (hashF : String → Nat) : Vocab → String → Vocab × Nat
  | .exact vb, t =>
    let r := vb.getitem t
    (.exact r.1, r.2)
  | .hashed hv, t =>
    let r := hv.getitem hashF t
    (.hashed r.1, r.2)

def Vocab.tokens : Vocab → List String
  | .exact vb => vb.tokens
  | .hashed hv => hv.tokens

/-- Embeds `vocab.convert(tokens)`: `[TokenLoc(self[t.token], t.loc) for t in
tokens]`, threading the mutating builder left to right. -/
def Vocab.convert (hashF : String → Nat) : Vocab → List TokenLocS → Vocab × List TokenLocN
  | v, [] => (v, [])
  | v, tl :: rest =>
    let r := v.getitem hashF tl.token
    let rr := Vocab.convert hashF r.1 rest
    (rr.1, ⟨r.2, tl.loc⟩ :: rr.2)

/-- The storage strategy chosen by `Pipeline.run`: an in-memory list or a
disk-backed DocumentStream. -/
inductive Storage (μ : Type) where
  | memory : List (Document μ) → Storage μ
  | stream : DocumentStream (Document μ) → Storage μ

def Storage.append {μ : Type} : Storage μ → Document μ → Storage μ
  | .memory docs, d => .memory (docs ++ [d])
  | .stream s, d => .stream (s.append d)

/-- The document sequence a finished storage contributes to the Corpus:
the list itself for in-memory storage, the replayed records for a
DocumentStream. -/
def Storage.toDocuments {μ : Type} : Storage μ → List (Document μ)
  | .memory docs => docs
  | .stream s => s.iter.2

structure Pipeline (F μ : Type) where
  inputer : Unit → List F
  extractor : F → List Text
  tokenizer : String → List TokenLocS
  labeler : String → μ
  filterer : Document μ → Bool
  informer : Option (Corpus μ → μ)
  emptyMeta : μ
  updateMeta : μ → μ → μ

/-- The inner loop of `Pipeline.run` over the Texts of one input file. -/
def Pipeline.runTexts {F μ : Type} (p : Pipeline F μ) (hashF : String → Nat) :
    Vocab → Storage μ → List Text → Vocab × Storage μ
  | v, s, [] => (v, s)
  | v, s, text :: texts =>
    let tokens := p.tokenizer text.data
    let conv := Vocab.convert hashF v tokens
    let metadata := p.labeler text.name
    let document : Document μ := ⟨text.data, conv.2, metadata⟩
    Pipeline.runTexts p hashF conv.1
      (if p.filterer document then s.append document else s) texts

/-- The outer loop of `Pipeline.run` over the files the Inputer yields. -/
def Pipeline.runFiles {F μ : Type} (p : Pipeline F μ) (hashF : String → Nat) :
    Vocab → Storage μ → List F → Vocab × Storage μ
  | v, s, [] => (v, s)
  | v, s, f :: fs =>
    let r := Pipeline.runTexts p hashF v s (p.extractor f)
    Pipeline.runFiles p hashF r.1 r.2 fs

def Pipeline.run {F μ : Type} (p : Pipeline F μ) (hashF : String → Nat)
    (cacheContents : Option (Corpus μ)) (docsPath : Bool) (hashSize : Option Nat)
    (priorFile : List (Document μ)) : Corpus μ × Bool :=
  match cacheContents with
  | some c => (c, false)
  | none =>
    let documents : Storage μ :=
      if docsPath then .stream (DocumentStream.init priorFile) else .memory []
    let vocab : Vocab :=
      if truthyN hashSize then .hashed (HashedVocabBuilder.init (hashSize.getD 0))
      else .exact VocabBuilder.init
    let r := p.runFiles hashF vocab documents (p.inputer ())
    let corpus0 : Corpus μ := ⟨r.2.toDocuments, r.1.tokens, p.emptyMeta⟩
    let corpus :=
      match p.informer with
      | none => corpus0
      | some f => { corpus0 with metadata := p.updateMeta p.emptyMeta (f corpus0) }
    (corpus, true)

/-- Claim C2: when the cache path names an existing file holding a
persisted Corpus, `Pipeline.run` returns that Corpus unconditionally and
performs no ingestion work: the result is the same for every pipeline (so
no strategy, in particular the Inputer, is ever invoked), and the
ingestion flag is `false`. -/
theorem C2_cache_short_circuits_run {F μ : Type} (p : Pipeline F μ)
    (hashF : String → Nat) (c : Corpus μ) (docsPath : Bool) (hashSize : Option Nat)
    (prior : List (Document μ)) :
    p.run hashF (some c) docsPath hashSize prior = (c, false) := rfl

/-- Claim C10: constructing a DocumentStream — directly, or implicitly via
`Pipeline.run` with a docs_path — opens the backing file in truncating
write mode: whatever records previously existed at the path are discarded,
the new stream has logical size 0 and iterates to the empty sequence, and
a streaming `Pipeline.run` is unaffected by the prior file contents. -/
theorem C10_stream_init_truncates {α F μ : Type} (prior : List α)
    (p : Pipeline F μ) (hashF : String → Nat) (hashSize : Option Nat)
    (priorDocs : List (Document μ)) :
    DocumentStream.init prior = DocumentStream.init ([] : List α) ∧
      (DocumentStream.init prior).len = 0 ∧
      (DocumentStream.init prior).iter.2 = ([] : List α) ∧
      p.run hashF none true hashSize priorDocs = p.run hashF none true hashSize [] :=
  ⟨rfl, rfl, rfl, rfl⟩

/-! ### Token ids stay inside the exported vocabulary (C7 machinery) -/

theorem VocabBuilder.getitem_bound (vb : VocabBuilder) (t : String) (h : vb.WF) :
    (vb.getitem t).1.WF ∧ (vb.getitem t).2 < (vb.getitem t).1.tokens.length ∧
      vb.tokens.length ≤ (vb.getitem t).1.tokens.length := by
  refine ⟨vb.getitem_WF t h, ?_, ?_⟩
  · obtain ⟨hidx, hmem⟩ := vb.getitem_id t h
    rw [hidx]
    exact List.indexOf_lt_length.mpr hmem
  · unfold VocabBuilder.getitem
    cases assocFind t vb.types <;> simp

theorem HashedVocabBuilder.tokens_length (h : HashedVocabBuilder) :
    h.tokens.length = h.buckets.length := by
  simp [HashedVocabBuilder.tokens]

def Vocab.WF : Vocab → Prop
  | .exact vb => vb.WF
  | .hashed hv => hv.WF

theorem Vocab.getitem_spec (hashF : String → Nat) (v : Vocab) (t : String) (h : v.WF) :
    (v.getitem hashF t).1.WF ∧
      (v.getitem hashF t).2 < (v.getitem hashF t).1.tokens.length ∧
      v.tokens.length ≤ (v.getitem hashF t).1.tokens.length := by
  cases v with
  | exact vb =>
    obtain ⟨h1, h2, h3⟩ := vb.getitem_bound t h
    exact ⟨h1, h2, h3⟩
  | hashed hv =>
    obtain ⟨h1, h2, h3, -⟩ := hv.getitem_step_spec hashF t h
    refine ⟨h1, ?_, ?_⟩
    · show (hv.getitem hashF t).2 < ((hv.getitem hashF t).1).tokens.length
      rw [HashedVocabBuilder.tokens_length]
      exact h2
    · show hv.tokens.length ≤ ((hv.getitem hashF t).1).tokens.length
      rw [HashedVocabBuilder.tokens_length, HashedVocabBuilder.tokens_length]
      exact h3

theorem Vocab.convert_spec (hashF : String → Nat) (tls : List TokenLocS) (v : Vocab)
    (h : v.WF) :
    (Vocab.convert hashF v tls).1.WF ∧
      v.tokens.length ≤ (Vocab.convert hashF v tls).1.tokens.length ∧
      ∀ x ∈ (Vocab.convert hashF v tls).2,
        x.token < (Vocab.convert hashF v tls).1.tokens.length := by
  induction tls generalizing v with
  | nil => exact ⟨h, le_refl _, by simp [Vocab.convert]⟩
  | cons tl rest ih =>
    obtain ⟨h1, h2, h3⟩ := Vocab.getitem_spec hashF v tl.token h
    obtain ⟨ih1, ih2, ih3⟩ := ih (v.getitem hashF tl.token).1 h1
    simp only [Vocab.convert]
    refine ⟨ih1, le_trans h3 ih2, ?_⟩
    intro x hx
    rcases List.mem_cons.mp hx with hx | hx
    · rw [hx]
      exact lt_of_lt_of_le h2 ih2
    · exact ih3 x hx

def Storage.Inv {μ : Type} : Storage μ → Prop
  | .memory _ => True
  | .stream s => s.Inv

theorem Storage.append_spec {μ : Type} (s : Storage μ) (d : Document μ) (h : s.Inv) :
    (s.append d).Inv ∧ (s.append d).toDocuments = s.toDocuments ++ [d] := by
  cases s with
  | memory docs => exact ⟨trivial, rfl⟩
  | stream ds =>
    obtain ⟨h1, h2⟩ := ds.append_inv d h
    obtain ⟨i1, -, -, -⟩ := (ds.append d).iter_spec h1
    obtain ⟨j1, -, -, -⟩ := ds.iter_spec h
    refine ⟨h1, ?_⟩
    show (ds.append d).iter.2 = ds.iter.2 ++ [d]
    rw [i1, j1, h2]

theorem Pipeline.runTexts_spec {F μ : Type} (p : Pipeline F μ) (hashF : String → Nat)
    (texts : List Text) (v : Vocab) (s : Storage μ) (hv : v.WF) (hs : s.Inv)
    (hdocs : ∀ doc ∈ s.toDocuments, ∀ x ∈ doc.tokens, x.token < v.tokens.length) :
    (p.runTexts hashF v s texts).1.WF ∧ (p.runTexts hashF v s texts).2.Inv ∧
      v.tokens.length ≤ (p.runTexts hashF v s texts).1.tokens.length ∧
      ∀ doc ∈ (p.runTexts hashF v s texts).2.toDocuments, ∀ x ∈ doc.tokens,
        x.token < (p.runTexts hashF v s texts).1.tokens.length := by
  induction texts generalizing v s with
  | nil => exact ⟨hv, hs, le_refl _, hdocs⟩
  | cons text texts ih =>
    obtain ⟨c1, c2, c3⟩ := Vocab.convert_spec hashF (p.tokenizer text.data) v hv
    simp only [Pipeline.runTexts]
    by_cases hf : p.filterer ⟨text.data, (Vocab.convert hashF v (p.tokenizer text.data)).2,
        p.labeler text.name⟩ = true
    · rw [if_pos hf]
      obtain ⟨a1, a2⟩ := Storage.append_spec s _ hs
      have hdocs' : ∀ doc ∈ (s.append ⟨text.data,
          (Vocab.convert hashF v (p.tokenizer text.data)).2, p.labeler text.name⟩).toDocuments,
          ∀ x ∈ doc.tokens,
            x.token < (Vocab.convert hashF v (p.tokenizer text.data)).1.tokens.length := by
        rw [a2]
        intro doc hdmem x hx
        rcases List.mem_append.mp hdmem with hdm | hdm
        · exact lt_of_lt_of_le (hdocs doc hdm x hx) c2
        · simp only [List.mem_singleton] at hdm
          subst hdm
          exact c3 x hx
      obtain ⟨r1, r2, r3, r4⟩ := ih _ _ c1 a1 hdocs'
      exact ⟨r1, r2, le_trans c2 r3, r4⟩
    · rw [if_neg hf]
      have hdocs' : ∀ doc ∈ s.toDocuments, ∀ x ∈ doc.tokens,
          x.token < (Vocab.convert hashF v (p.tokenizer text.data)).1.tokens.length :=
        fun doc hdm x hx => lt_of_lt_of_le (hdocs doc hdm x hx) c2
      obtain ⟨r1, r2, r3, r4⟩ := ih _ _ c1 hs hdocs'
      exact ⟨r1, r2, le_trans c2 r3, r4⟩

theorem Pipeline.runFiles_spec {F μ : Type} (p : Pipeline F μ) (hashF : String → Nat)
    (files : List F) (v : Vocab) (s : Storage μ) (hv : v.WF) (hs : s.Inv)
    (hdocs : ∀ doc ∈ s.toDocuments, ∀ x ∈ doc.tokens, x.token < v.tokens.length) :
    (p.runFiles hashF v s files).1.WF ∧ (p.runFiles hashF v s files).2.Inv ∧
      ∀ doc ∈ (p.runFiles hashF v s files).2.toDocuments, ∀ x ∈ doc.tokens,
        x.token < (p.runFiles hashF v s files).1.tokens.length := by
  induction files generalizing v s with
  | nil => exact ⟨hv, hs, hdocs⟩
  | cons f fs ih =>
    obtain ⟨r1, r2, r3, r4⟩ := p.runTexts_spec hashF (p.extractor f) v s hv hs hdocs
    simp only [Pipeline.runFiles]
    exact ih _ _ r1 r2 r4

/-- The documents and vocabulary a non-cached `Pipeline.run` returns come
from the finished ingestion loop; the informer only touches metadata. -/
theorem Pipeline.run_none_parts {F μ : Type} (p : Pipeline F μ) (hashF : String → Nat)
    (docsPath : Bool) (hashSize : Option Nat) (prior : List (Document μ)) :
    (p.run hashF none docsPath hashSize prior).1.documents =
      (p.runFiles hashF
        (if truthyN hashSize then .hashed (HashedVocabBuilder.init (hashSize.getD 0))
          else .exact VocabBuilder.init)
        (if docsPath then .stream (DocumentStream.init prior) else .memory [])
        (p.inputer ())).2.toDocuments ∧
      (p.run hashF none docsPath hashSize prior).1.vocabulary =
        (p.runFiles hashF
          (if truthyN hashSize then .hashed (HashedVocabBuilder.init (hashSize.getD 0))
            else .exact VocabBuilder.init)
          (if docsPath then .stream (DocumentStream.init prior) else .memory [])
          (p.inputer ())).1.tokens := by
  unfold Pipeline.run
  cases p.informer <;> exact ⟨rfl, rfl⟩

/-- Claim C7: every token id stored in any document of a Corpus returned by
a completed (non-cached) `Pipeline.run` — under both the exact and the
hashed vocabulary strategy, and under both in-memory and disk-backed
storage — is a valid 0-based index into the returned vocabulary list. -/
theorem C7_token_ids_index_vocabulary {F μ : Type} (p : Pipeline F μ)
    (hashF : String → Nat) (docsPath : Bool) (hashSize : Option Nat)
    (prior : List (Document μ)) (doc : Document μ) (x : TokenLocN)
    (hdoc : doc ∈ (p.run hashF none docsPath hashSize prior).1.documents)
    (hx : x ∈ doc.tokens) :
    x.token < (p.run hashF none docsPath hashSize prior).1.vocabulary.length := by
  obtain ⟨hd, hvoc⟩ := p.run_none_parts hashF docsPath hashSize prior
  rw [hvoc]
  rw [hd] at hdoc
  have hv0 : Vocab.WF (if truthyN hashSize then
      .hashed (HashedVocabBuilder.init (hashSize.getD 0)) else .exact VocabBuilder.init) := by
    by_cases ht : truthyN hashSize = true
    · rw [if_pos ht]
      exact HashedVocabBuilder.initHWF _
    · rw [if_neg ht]
      exact VocabBuilder.initWF
  have hs0 : Storage.Inv (μ := μ)
      (if docsPath then .stream (DocumentStream.init prior) else .memory []) := by
    cases docsPath with
    | true => exact DocumentStream.init_inv prior
    | false => exact trivial
  have hd0 : ∀ d ∈ (Storage.toDocuments (μ := μ)
      (if docsPath then .stream (DocumentStream.init prior) else .memory [])),
      ∀ y ∈ d.tokens, y.token < (Vocab.tokens (if truthyN hashSize then
        .hashed (HashedVocabBuilder.init (hashSize.getD 0))
        else .exact VocabBuilder.init)).length := by
    cases docsPath with
    | true =>
      intro d hdm
      simp [Storage.toDocuments, DocumentStream.iter, DocumentStream.flush,
        DocumentStream.init] at hdm
    | false =>
      intro d hdm
      simp [Storage.toDocuments] at hdm
  obtain ⟨-, -, hfin⟩ := p.runFiles_spec hashF (p.inputer ()) _ _ hv0 hs0 hd0
  exact hfin doc hdoc x hx

/-- A one-file, two-token concrete pipeline used to witness C7. -/
def pipelineC : Pipeline Unit Unit where
  inputer := fun _ => [()]
  extractor := fun _ => [⟨"doc1", "a b"⟩]
  tokenizer := fun _ => [⟨"a", (0, 1)⟩, ⟨"b", (2, 3)⟩]
  labeler := fun _ => ()
  filterer := fun _ => true
  informer := none
  emptyMeta := ()
  updateMeta := fun m _ => m

/-- The document `pipelineC` ingests. -/
def documentC : Document Unit := ⟨"a b", [⟨0, (0, 1)⟩, ⟨1, (2, 3)⟩], ()⟩

/-- Witness for C7 on the concrete pipeline `pipelineC`. -/
theorem C7_witness :
    (⟨0, (0, 1)⟩ : TokenLocN).token <
      (pipelineC.run (fun _ => 0) none false none []).1.vocabulary.length :=
  C7_token_ids_index_vocabulary pipelineC (fun _ => 0) false none [] documentC
    ⟨0, (0, 1)⟩ (by decide) (by decide)

/-! ## build_docwords (pipeline.py lines 598-614)

```python
def build_docwords(corpus, V=None):
    D = len(corpus.documents)
    if V is None:
        V = len(corpus.vocabulary)
    docwords = scipy.sparse.lil_matrix((D, V))
    for d, doc in enumerate(corpus.documents):
        for tl in doc.tokens:
            docwords[d, tl.token] += 1
    return docwords.tocsc()
```

The D×V matrix is embedded densely as a list of rows (the lil→csc format
change does not alter entries).  `enumerate` is rendered as an
index-carrying recursion.
-/

theorem modifyAt_nil {α : Type} (f : α → α) (n : Nat) : modifyAt f n [] = [] := by
  cases n <;> rfl

/-- Embeds `docwords[d, tl.token] += 1`. -/
def incCell (m : List (List Nat)) (d v : Nat) : List (List Nat) :=
  modifyAt (fun row => modifyAt (fun c => c + 1) v row) d m

/-- Effect of one document's inner loop on its own row. -/
def rowFold (tokens : List TokenLocN) (r : List Nat) : List Nat :=
  tokens.foldl (fun r x => modifyAt (fun c => c + 1) x.token r) r

/-- Inner loop of `build_docwords` over one document's tokens. -/
def docFold (d : Nat) (tokens : List TokenLocN) (m : List (List Nat)) :
    List (List Nat) :=
  tokens.foldl (fun m x => incCell m d x.token) m

/-- Outer loop of `build_docwords` (`for d, doc in enumerate(...)`). -/
def build_docwordsGo {μ : Type} (m : List (List Nat)) (d : Nat) :
    List (Document μ) → List (List Nat)
  | [] => m
  | doc :: docs => build_docwordsGo (docFold d doc.tokens m) (d + 1) docs

def build_docwords {μ : Type} (corpus : Corpus μ) (V : Option Nat) : List (List Nat) :=
  let D := corpus.documents.length
  let Vn := V.getD corpus.vocabulary.length
  build_docwordsGo (List.replicate D (List.replicate Vn 0)) 0 corpus.documents

theorem getD_modifyAt_pres {α : Type} (f : α → α) (n : Nat) (l : List α) (d : α)
    (hd : f d = d) : (modifyAt f n l).getD n d = f (l.getD n d) := by
  by_cases h : n < l.length
  · exact getD_modifyAt_eq f n l d h
  · have h1 : (modifyAt f n l).getD n d = d := by
      apply List.getD_eq_default
      rw [modifyAt_length]
      omega
    have h2 : l.getD n d = d := by
      apply List.getD_eq_default
      omega
    rw [h1, h2, hd]

theorem rowFold_length (tokens : List TokenLocN) (r : List Nat) :
    (rowFold tokens r).length = r.length := by
  induction tokens generalizing r with
  | nil => rfl
  | cons x rest ih =>
    show (rowFold rest (modifyAt _ x.token r)).length = r.length
    rw [ih, modifyAt_length]

theorem rowFold_getD (tokens : List TokenLocN) (r : List Nat) (v : Nat)
    (hv : v < r.length) :
    (rowFold tokens r).getD v 0 =
      r.getD v 0 + tokens.countP (fun x => x.token == v) := by
  induction tokens generalizing r with
  | nil => simp [rowFold]
  | cons x rest ih =>
    have hlen : (modifyAt (fun c => c + 1) x.token r).length = r.length :=
      modifyAt_length _ _ _
    show (rowFold rest (modifyAt _ x.token r)).getD v 0 = _
    rw [ih _ (by rw [hlen]; exact hv), List.countP_cons]
    by_cases hxv : x.token = v
    · rw [hxv, getD_modifyAt_eq _ _ _ _ hv]
      simp [hxv]
      omega
    · rw [getD_modifyAt_ne _ _ _ _ _ (fun he => hxv he.symm)]
      have : (x.token == v) = false := by
        simp [hxv]
      rw [this]
      simp

theorem docFold_length (d : Nat) (tokens : List TokenLocN) (m : List (List Nat)) :
    (docFold d tokens m).length = m.length := by
  induction tokens generalizing m with
  | nil => rfl
  | cons x rest ih =>
    show (docFold d rest (incCell m d x.token)).length = m.length
    rw [ih, incCell, modifyAt_length]

theorem docFold_getD_ne (d : Nat) (tokens : List TokenLocN) (m : List (List Nat))
    (d' : Nat) (h : d' ≠ d) : (docFold d tokens m).getD d' [] = m.getD d' [] := by
  induction tokens generalizing m with
  | nil => rfl
  | cons x rest ih =>
    show (docFold d rest (incCell m d x.token)).getD d' [] = m.getD d' []
    rw [ih, incCell, getD_modifyAt_ne _ _ _ _ _ h]

theorem docFold_getD_eq (d : Nat) (tokens : List TokenLocN) (m : List (List Nat)) :
    (docFold d tokens m).getD d [] = rowFold tokens (m.getD d []) := by
  induction tokens generalizing m with
  | nil => rfl
  | cons x rest ih =>
    show (docFold d rest (incCell m d x.token)).getD d [] = _
    rw [ih, incCell, getD_modifyAt_pres _ _ _ _ (modifyAt_nil _ _)]
    rfl

theorem build_docwordsGo_length {μ : Type} (docs : List (Document μ))
    (m : List (List Nat)) (d0 : Nat) :
    (build_docwordsGo m d0 docs).length = m.length := by
  induction docs generalizing m d0 with
  | nil => rfl
  | cons doc docs ih =>
    show (build_docwordsGo (docFold d0 doc.tokens m) (d0 + 1) docs).length = m.length
    rw [ih, docFold_length]

theorem build_docwordsGo_getD_out {μ : Type} (docs : List (Document μ))
    (m : List (List Nat)) (d0 : Nat) (d' : Nat)
    (h : ∀ j < docs.length, d' ≠ d0 + j) :
    (build_docwordsGo m d0 docs).getD d' [] = m.getD d' [] := by
  induction docs generalizing m d0 with
  | nil => rfl
  | cons doc docs ih =>
    show (build_docwordsGo (docFold d0 doc.tokens m) (d0 + 1) docs).getD d' [] = _
    rw [ih _ _ ?_, docFold_getD_ne]
    · have := h 0 (by simp)
      omega
    · intro j hj
      have := h (j + 1) (by simpa using hj)
      omega

theorem build_docwordsGo_getD {μ : Type} (docs : List (Document μ))
    (m : List (List Nat)) (d0 : Nat) (j : Nat) (doc : Document μ)
    (hj : docs.get? j = some doc) :
    (build_docwordsGo m d0 docs).getD (d0 + j) [] =
      rowFold doc.tokens (m.getD (d0 + j) []) := by
  induction docs generalizing m d0 j with
  | nil => simp at hj
  | cons dd docs ih =>
    cases j with
    | zero =>
      simp only [List.get?_cons_zero, Option.some.injEq] at hj
      subst hj
      show (build_docwordsGo (docFold d0 dd.tokens m) (d0 + 1) docs).getD (d0 + 0) [] = _
      rw [build_docwordsGo_getD_out _ _ _ _ (fun k hk => by omega)]
      rw [show d0 + 0 = d0 from rfl]
      exact docFold_getD_eq d0 dd.tokens m
    | succ jj =>
      simp only [List.get?_cons_succ] at hj
      have harith : d0 + (jj + 1) = (d0 + 1) + jj := by omega
      show (build_docwordsGo (docFold d0 dd.tokens m) (d0 + 1) docs).getD (d0 + (jj + 1)) [] = _
      rw [harith, ih _ _ _ hj, docFold_getD_ne _ _ _ _ (by omega)]

theorem getD_replicate_lt {α : Type} (n i : Nat) (a d : α) (h : i < n) :
    (List.replicate n a).getD i d = a := by
  induction n generalizing i with
  | zero => omega
  | succ nn ih =>
    cases i with
    | zero => rfl
    | succ ii => simpa [List.replicate] using ih ii (by omega)

/-- Claim C9: `build_docwords(corpus, V)` (with `V` defaulting to the
vocabulary length) returns a matrix with one row per document and `V`
columns, in which cell `(d, v)` is the number of occurrences of token id
`v` in document `d`'s token sequence — for corpora whose token ids all lie
below `V` (the regime in which the sparse-matrix writes are in bounds). -/
theorem C9_docwords_counts {μ : Type} (corpus : Corpus μ) (V : Option Nat)
    (_hids : ∀ doc ∈ corpus.documents, ∀ x ∈ doc.tokens,
      x.token < V.getD corpus.vocabulary.length) :
    (build_docwords corpus V).length = corpus.documents.length ∧
      (∀ d < corpus.documents.length,
        ((build_docwords corpus V).getD d []).length = V.getD corpus.vocabulary.length) ∧
      ∀ d v doc, corpus.documents.get? d = some doc →
        v < V.getD corpus.vocabulary.length →
        ((build_docwords corpus V).getD d []).getD v 0 =
          doc.tokens.countP (fun x => x.token == v) := by
  refine ⟨?_, ?_, ?_⟩
  · unfold build_docwords
    rw [build_docwordsGo_length]
    simp
  · intro d hd
    have hget : ∃ doc, corpus.documents.get? d = some doc := by
      rw [List.get?_eq_get hd]
      exact ⟨_, rfl⟩
    obtain ⟨doc, hdoc⟩ := hget
    unfold build_docwords
    have h0 : (0 : Nat) + d = d := by omega
    rw [← h0, build_docwordsGo_getD _ _ _ _ _ hdoc, rowFold_length, h0]
    rw [getD_replicate_lt _ _ _ _ hd]
    simp
  · intro d v doc hdoc hv
    have hd : d < corpus.documents.length := by
      by_contra hcon
      rw [List.get?_eq_none.mpr (by omega)] at hdoc
      exact Option.noConfusion hdoc
    unfold build_docwords
    have h0 : (0 : Nat) + d = d := by omega
    rw [← h0, build_docwordsGo_getD _ _ _ _ _ hdoc, h0]
    rw [getD_replicate_lt _ _ _ _ hd]
    rw [rowFold_getD _ _ _ (by rw [List.length_replicate]; exact hv)]
    rw [getD_replicate_lt _ _ _ _ hv]
    simp

/-- A small concrete corpus used to witness C9: one document "a b a" with
token ids [0, 1, 0] over the vocabulary ["a", "b"]. -/
def corpusC : Corpus Unit :=
  ⟨[⟨"a b a", [⟨0, (0, 1)⟩, ⟨1, (2, 3)⟩, ⟨0, (4, 5)⟩], ()⟩], ["a", "b"], ()⟩

/-- Witness for C9 on `corpusC`: cell (0, 0) holds the two occurrences of
token id 0. -/
theorem C9_witness :
    ((build_docwords corpusC none).getD 0 []).getD 0 0 =
      (⟨"a b a", [⟨0, (0, 1)⟩, ⟨1, (2, 3)⟩, ⟨0, (4, 5)⟩], ()⟩ : Document Unit).tokens.countP
        (fun x => x.token == 0) :=
  (C9_docwords_counts corpusC none (by decide)).2.2 0 0
    ⟨"a b a", [⟨0, (0, 1)⟩, ⟨1, (2, 3)⟩, ⟨0, (4, 5)⟩], ()⟩ (by decide) (by decide)

/-! ## test_train_split size resolution (pipeline.py lines 617-629)

```python
def test_train_split(corpus, num_train=None, num_test=None, random_seed=None, **kwargs):
    ...
    if not num_train and not num_test:
        num_train = int(len(corpus.documents) * .8)
        num_test = len(corpus.documents) - num_train
    elif not num_train:
        num_train = len(corpus.documents) - num_test
    elif not num_test:
        num_test = len(corpus.documents) - num_train
```

Python truthiness makes an explicit `0` indistinguishable from `None`
(`truthyN`).  `int(total * .8)` is the float product truncated toward
zero; for every corpus size reachable in practice it equals
`(4 * total) / 5` in exact arithmetic (`0.8`'s double rounds up by
≈ 4.4e-17, never enough to cross an integer boundary), which is how it is
embedded.  Subtractions are on Python ints, hence `Int`-valued. -/

def resolveSplitSizes (total : Nat) (num_train num_test : Option Nat) : Int × Int :=
  if !truthyN num_train && !truthyN num_test then
    (((4 * total) / 5 : Nat), (total : Int) - (((4 * total) / 5 : Nat) : Int))
  else if !truthyN num_train then
    ((total : Int) - ((num_test.getD 0 : Nat) : Int), ((num_test.getD 0 : Nat) : Int))
  else if !truthyN num_test then
    (((num_train.getD 0 : Nat) : Int), (total : Int) - ((num_train.getD 0 : Nat) : Int))
  else
    (((num_train.getD 0 : Nat) : Int), ((num_test.getD 0 : Nat) : Int))

/-- Counterexample to claim C4 as stated: over a 10-document corpus, with
`num_train = 0` given and `num_test` absent, the claim demands
`(num_train, num_test) = (0, 10)`, but the code treats the falsy `0` as
"not given" and resolves to `(8, 2)`. -/
theorem C4_counterexample :
    resolveSplitSizes 10 (some 0) none ≠ ((0 : Int), (10 : Int)) := by decide

/-- Claim C4 (amended): if neither `num_train` nor `num_test` is truthy,
`num_train = floor(0.8 * total)` and `num_test = total - num_train`; if
exactly one of the two is given and nonzero, the other is set to `total`
minus the given value (and both given nonzero are kept as-is); a given
value of `0` is falsy in Python and therefore treated exactly as if the
argument were not given. -/
theorem C4_split_size_resolution (total : Nat) :
    (resolveSplitSizes total none none =
      ((((4 * total) / 5 : Nat) : Int), (total : Int) - (((4 * total) / 5 : Nat) : Int))) ∧
      (∀ c : Nat, c ≠ 0 →
        resolveSplitSizes total none (some c) = ((total : Int) - (c : Int), (c : Int))) ∧
      (∀ t : Nat, t ≠ 0 →
        resolveSplitSizes total (some t) none = ((t : Int), (total : Int) - (t : Int))) ∧
      (∀ t c : Nat, t ≠ 0 → c ≠ 0 →
        resolveSplitSizes total (some t) (some c) = ((t : Int), (c : Int))) ∧
      (∀ o, resolveSplitSizes total (some 0) o = resolveSplitSizes total none o) ∧
      (∀ o, resolveSplitSizes total o (some 0) = resolveSplitSizes total o none) := by
  refine ⟨rfl, ?_, ?_, ?_, ?_, ?_⟩
  · intro c hc
    simp [resolveSplitSizes, truthyN, hc]
  · intro t ht
    simp [resolveSplitSizes, truthyN, ht]
  · intro t c ht hc
    simp [resolveSplitSizes, truthyN, ht, hc]
  · intro o
    cases o with
    | none => rfl
    | some n => simp [resolveSplitSizes, truthyN]
  · intro o
    cases o with
    | none => rfl
    | some n => simp [resolveSplitSizes, truthyN]

/-- Witness for C4 at `total = 10`, `num_test = 3` given. -/
theorem C4_witness :
    resolveSplitSizes 10 none (some 3) = ((10 : Int) - (3 : Int), (3 : Int)) :=
  (C4_split_size_resolution 10).2.1 3 (by decide)

/-! ## test_train_split reservoir path (pipeline.py lines 636-654)

```python
    except TypeError: # corpus doesn't support random indexing
        sample_size = num_train + num_test
        sample = []
        doc_ids = []

        # reservoir sampling
        for i, doc in enumerate(corpus.documents):
            if i < sample_size:
                sample.append(doc)
                doc_ids.append(i)
            elif np.random.random() < (sample_size / i):
                replace_index = np.random.randint(len(sample))
                sample[replace_index] = doc
                doc_ids[replace_index] = i
```

The machine's uniform draws are an explicit input stream: `draw i` is the
value `np.random.random()` returns at position `i` (a real in [0,1),
embedded over ℚ), and `ridx i` the slot `np.random.randint(len(sample))`
returns there.  Note the acceptance test divides by `i`, not `i + 1`. -/

structure Reservoir (α : Type) where
  sample : List α
  doc_ids : List Nat
deriving DecidableEq, Repr

def reservoirStep {α : Type} (sample_size : Nat) (draw : Nat → ℚ) (ridx : Nat → Nat)
    (st : Reservoir α) (i : Nat) (doc : α) : Reservoir α :=
  if i < sample_size then
    ⟨st.sample ++ [doc], st.doc_ids ++ [i]⟩
  else if draw i < (sample_size : ℚ) / (i : ℚ) then
    ⟨st.sample.set (ridx i) doc, st.doc_ids.set (ridx i) i⟩
  else st

def reservoirGo {α : Type} (sample_size : Nat) (draw : Nat → ℚ) (ridx : Nat → Nat)
    (st : Reservoir α) (i : Nat) : List α → Reservoir α
  | [] => st
  | doc :: docs =>
    reservoirGo sample_size draw ridx
      (reservoirStep sample_size draw ridx st i doc) (i + 1) docs

/-- The reservoir-sampling fallback of `test_train_split` with
`sample_size = num_train + num_test`. -/
def reservoirSample {α : Type} (sample_size : Nat) (draw : Nat → ℚ) (ridx : Nat → Nat)
    (docs : List α) : Reservoir α :=
  reservoirGo sample_size draw ridx ⟨[], []⟩ 0 docs

/-- Claim C1 fails on the code: with reservoir size `k = 1` over a
two-document corpus and the uniform draw `1/2` at position `i = 1`, the
draw is not below `k / (i+1) = 1/2`, so per the claim the reservoir must
still hold document 0 — but the code tests `draw < k / i = 1` and
replaces, leaving document 1 in the reservoir. -/
theorem C1_reservoir_off_by_one :
    ¬((1 : ℚ) / 2 < (1 : ℚ) / ((1 : ℚ) + 1)) ∧
      (reservoirSample 1 (fun _ => (1 : ℚ) / 2) (fun _ => 0) [(0 : Nat), 1]).sample = [1] ∧
      (reservoirSample 1 (fun _ => (1 : ℚ) / 2) (fun _ => 0) [(0 : Nat), 1]).doc_ids = [1] := by
  refine ⟨by norm_num, ?_, ?_⟩ <;>
    norm_num [reservoirSample, reservoirGo, reservoirStep]

end Ankura
